import Mathlib

/-!
Verification development for the spectral similarity and network
construction code of the FIAMN/FIBMN repository.

The similarity scorer, spectral entropy evaluator and full pairwise
network builder are embedded from
src/FIBMN/skeleton_similarity_network/script_06_skeleton_sim.py, and the
seed search plus breadth first family expansion from
src/FIAMN/family_Network_Cosine/script_03_cosine_similarity_calc.py.
Masses and intensities are modelled as exact rationals; derived scores
(cosine similarity, spectral entropy) are real numbers.
-/

/-- Peak list of one spectrum: (mass to charge, intensity) pairs kept in
dict insertion order, modelling the Python Dict[float, float]. The dict
invariant makes the mass values of one spectrum pairwise distinct. -/
abbrev Peaks := List (ℚ × ℚ)

/-- Cosine similarity threshold, script_06 line 8. -/
def SIM_THRESHOLD : ℚ := 9 / 10

/-- Mass tolerance in Da, script_06 line 9. -/
def MZ_TOLERANCE_DA : ℚ := 1 / 100

/-- Spectral entropy ratio threshold, script_06 line 10. -/
def ENTROPY_RATIO_LIMIT : ℚ := 3 / 4

/-- Inner loop of cosine_similarity, script_06 lines 64 to 68: scan the
keys of spectrum B by position, skipping entries whose index is already in
the matched set (here: whose flag is true), and take the first unmatched
entry whose mass lies within tol of mz1.  Returns the intensity of the
matched entry together with the flag list updated at that position, or
none when the scan falls through.  The Bool flags are the matched index
set of the Python code, kept alongside the keys. -/
def scanMatch (tol mz1 : ℚ) : List ((ℚ × ℚ) × Bool) → Option (ℚ × List ((ℚ × ℚ) × Bool))
  | [] => none
  | (b, mflag) :: bs =>
    if mflag = false ∧ |mz1 - b.1| ≤ tol then
      some (b.2, (b, true) :: bs)
    else
      match scanMatch tol mz1 bs with
      | some (y, bs2) => some (y, (b, mflag) :: bs2)
      | none => none

/-- Outer loop of cosine_similarity, script_06 lines 63 to 68: iterate
over the peaks of spectrum A in stored order, accumulating the product of
intensities for each greedily matched pair of peaks. -/
def dotAux (tol : ℚ) : Peaks → List ((ℚ × ℚ) × Bool) → ℚ
  | [], _ => 0
  | a :: arest, bs =>
    match scanMatch tol a.1 bs with
    | some (y, bs2) => a.2 * y + dotAux tol arest bs2
    | none => dotAux tol arest bs

/-- The dot_product accumulated by cosine_similarity, script_06 lines
62 to 68, starting from an empty matched set (all flags false). -/
def dotProduct (tol : ℚ) (peaks1 peaks2 : Peaks) : ℚ :=
  dotAux tol peaks1 (peaks2.map (fun b => (b, false)))

/-- Sum of squared intensities of a spectrum, script_06 lines 69 to 70:
the square of the L2 norm of the full (unfiltered) intensity vector. -/
def normSq (p : Peaks) : ℚ := (p.map (fun x => x.2 ^ 2)).sum

/-- Cosine similarity between two peak lists, script_06 lines 59 to 71.
The Python guard tests truthiness of the square roots n1 and n2; each is
the square root of a nonnegative rational, so n1 is nonzero exactly when
normSq peaks1 is nonzero, which is how the guard is stated here.  When
either guard fails the Python code returns 0.0 without dividing. -/
noncomputable def cosine_similarity (peaks1 peaks2 : Peaks) : ℝ :=
  if normSq peaks1 ≠ 0 ∧ normSq peaks2 ≠ 0 then
    (dotProduct MZ_TOLERANCE_DA peaks1 peaks2 : ℝ) /
      (Real.sqrt (normSq peaks1) * Real.sqrt (normSq peaks2))
  else 0

/-- Companion model of one matching step in which matched peaks of B are
removed from the list instead of flagged: take the first remaining peak
of B within tol of mz1, returning its intensity and the list without it.
Related to scanMatch by the simulation lemma scanMatch_avail. -/
def extractMatch (tol mz1 : ℚ) : Peaks → Option (ℚ × Peaks)
  | [] => none
  | b :: bs =>
    if |mz1 - b.1| ≤ tol then
      some (b.2, bs)
    else
      match extractMatch tol mz1 bs with
      | some (y, bs2) => some (y, b :: bs2)
      | none => none

/-- Companion model of the greedy dot product in which spectrum B loses
each matched peak.  Equal to dotProduct by dotProduct_eq_gd. -/
def gd (tol : ℚ) : Peaks → Peaks → ℚ
  | [], _ => 0
  | a :: arest, bs =>
    match extractMatch tol a.1 bs with
    | some (y, bs2) => a.2 * y + gd tol arest bs2
    | none => gd tol arest bs

/-- Peaks of B still available for matching: the entries whose flag is
still false, in order. -/
def avail (bs : List ((ℚ × ℚ) × Bool)) : Peaks :=
  bs.filterMap (fun x => if x.2 = true then none else some x.1)

lemma avail_nil : avail [] = [] := rfl

lemma avail_cons_true (b : ℚ × ℚ) (bs : List ((ℚ × ℚ) × Bool)) :
    avail ((b, true) :: bs) = avail bs := by
  simp [avail]

lemma avail_cons_false (b : ℚ × ℚ) (bs : List ((ℚ × ℚ) × Bool)) :
    avail ((b, false) :: bs) = b :: avail bs := by
  simp [avail]

/-- Simulation between the flagged scan and the erasing extraction: over
the available peaks, the two produce the same result. -/
lemma scanMatch_avail (tol mz1 : ℚ) :
    ∀ bs : List ((ℚ × ℚ) × Bool),
      extractMatch tol mz1 (avail bs) =
        (scanMatch tol mz1 bs).map (fun p => (p.1, avail p.2)) := by
  intro bs
  induction bs with
  | nil => simp [avail_nil, extractMatch, scanMatch]
  | cons head tail IH =>
    obtain ⟨b, mflag⟩ := head
    cases mflag with
    | true =>
      rw [avail_cons_true, IH]
      cases hS : scanMatch tol mz1 tail with
      | none => simp [scanMatch, hS]
      | some p => simp [scanMatch, hS, avail_cons_true]
    | false =>
      rw [avail_cons_false]
      by_cases hm : |mz1 - b.1| ≤ tol
      · simp [extractMatch, scanMatch, hm, avail_cons_true]
      · cases hS : scanMatch tol mz1 tail with
        | none =>
          have h := IH
          rw [hS] at h
          simp only [Option.map_none'] at h
          simp [extractMatch, scanMatch, hm, hS, h]
        | some p =>
          have h := IH
          rw [hS] at h
          simp only [Option.map_some'] at h
          simp [extractMatch, scanMatch, hm, hS, h, avail_cons_false]

/-- The flagged greedy dot product equals the erasing one over the
available peaks. -/
lemma dotAux_eq_gd (tol : ℚ) :
    ∀ (p1 : Peaks) (bs : List ((ℚ × ℚ) × Bool)),
      dotAux tol p1 bs = gd tol p1 (avail bs) := by
  intro p1
  induction p1 with
  | nil => intro bs; rfl
  | cons a arest IH =>
    intro bs
    have h := scanMatch_avail tol a.1 bs
    cases hS : scanMatch tol a.1 bs with
    | none =>
      rw [hS] at h
      simp only [Option.map_none'] at h
      simp [dotAux, gd, hS, h, IH]
    | some p =>
      rw [hS] at h
      simp only [Option.map_some'] at h
      simp [dotAux, gd, hS, h, IH]

lemma avail_map_false (p2 : Peaks) :
    avail (p2.map (fun b => (b, false))) = p2 := by
  induction p2 with
  | nil => rfl
  | cons b bs IH => simp [avail] at IH ⊢; exact IH

/-- The dot product of the source code equals the erasing model. -/
lemma dotProduct_eq_gd (tol : ℚ) (p1 p2 : Peaks) :
    dotProduct tol p1 p2 = gd tol p1 p2 := by
  rw [dotProduct, dotAux_eq_gd, avail_map_false]

lemma gd_nil_right (tol : ℚ) : ∀ p : Peaks, gd tol p [] = 0 := by
  intro p
  induction p with
  | nil => rfl
  | cons a arest IH => simp [gd, extractMatch, IH]

lemma extractMatch_cons_pos (tol mz1 : ℚ) (c : ℚ × ℚ) (cs : Peaks)
    (h : |mz1 - c.1| ≤ tol) :
    extractMatch tol mz1 (c :: cs) = some (c.2, cs) := by
  simp [extractMatch, h]

lemma extractMatch_cons_neg (tol mz1 : ℚ) (c : ℚ × ℚ) (cs : Peaks)
    (h : ¬|mz1 - c.1| ≤ tol) :
    extractMatch tol mz1 (c :: cs) =
      (extractMatch tol mz1 cs).map (fun p => (p.1, c :: p.2)) := by
  cases hE : extractMatch tol mz1 cs with
  | none => simp [extractMatch, h, hE]
  | some p => simp [extractMatch, h, hE]

lemma gd_cons_some (tol : ℚ) (a : ℚ × ℚ) (arest bs : Peaks) (y : ℚ) (bs2 : Peaks)
    (h : extractMatch tol a.1 bs = some (y, bs2)) :
    gd tol (a :: arest) bs = a.2 * y + gd tol arest bs2 := by
  simp [gd, h]

lemma gd_cons_none (tol : ℚ) (a : ℚ × ℚ) (arest bs : Peaks)
    (h : extractMatch tol a.1 bs = none) :
    gd tol (a :: arest) bs = gd tol arest bs := by
  simp [gd, h]

/-- Unfolding facts for extractMatch on a successful search: the matched
peak splits spectrum B, no earlier peak of B is within tolerance, and the
returned list is B without the matched peak. -/
lemma extractMatch_eq_some (tol mz1 : ℚ) :
    ∀ (bs : Peaks) (y : ℚ) (bs2 : Peaks),
      extractMatch tol mz1 bs = some (y, bs2) →
      ∃ l1 b l2, bs = l1 ++ b :: l2 ∧ bs2 = l1 ++ l2 ∧ b.2 = y ∧
        |mz1 - b.1| ≤ tol ∧ ∀ c ∈ l1, ¬|mz1 - c.1| ≤ tol := by
  intro bs
  induction bs with
  | nil => intro y bs2 h; simp [extractMatch] at h
  | cons c rest IH =>
    intro y bs2 h
    by_cases hm : |mz1 - c.1| ≤ tol
    · rw [extractMatch_cons_pos tol mz1 c rest hm] at h
      simp at h
      exact ⟨[], c, rest, by simp, by simp [h.2.symm], h.1, hm, by simp⟩
    · rw [extractMatch_cons_neg tol mz1 c rest hm] at h
      cases hR : extractMatch tol mz1 rest with
      | none => rw [hR] at h; simp at h
      | some p =>
        rw [hR] at h
        simp at h
        obtain ⟨l1, b, l2, hsplit, hrem, hy, htol, hfirst⟩ :=
          IH p.1 p.2 (by rw [hR])
        refine ⟨c :: l1, b, l2, by simp [hsplit], ?_, by rw [hy, h.1], htol, ?_⟩
        · rw [← h.2, hrem]; simp
        · intro d hd
          rcases List.mem_cons.mp hd with hdc | hdl
          · rw [hdc]; exact hm
          · exact hfirst d hdl

lemma extractMatch_eq_none (tol mz1 : ℚ) :
    ∀ bs : Peaks, extractMatch tol mz1 bs = none →
      ∀ c ∈ bs, ¬|mz1 - c.1| ≤ tol := by
  intro bs
  induction bs with
  | nil => intro _ c hc; simp at hc
  | cons b rest IH =>
    intro h c hc
    by_cases hm : |mz1 - b.1| ≤ tol
    · rw [extractMatch_cons_pos tol mz1 b rest hm] at h; simp at h
    · rw [extractMatch_cons_neg tol mz1 b rest hm] at h
      cases hR : extractMatch tol mz1 rest with
      | none =>
        rcases List.mem_cons.mp hc with hcb | hcl
        · rw [hcb]; exact hm
        · exact IH hR c hcl
      | some p => rw [hR] at h; simp at h

/-- When no row peak is within tolerance of the distinguished column peak
a, prepending a to the column list does not change the greedy dot
product. -/
lemma gd_cons_no_match (tol : ℚ) (a : ℚ × ℚ) :
    ∀ (rows cs : Peaks), (∀ b ∈ rows, ¬|b.1 - a.1| ≤ tol) →
      gd tol rows (a :: cs) = gd tol rows cs := by
  intro rows
  induction rows with
  | nil => intro cs _; rfl
  | cons b brest IH =>
    intro cs h
    have hb : ¬|b.1 - a.1| ≤ tol := h b (by simp)
    have hrest : ∀ c ∈ brest, ¬|c.1 - a.1| ≤ tol := fun c hc => h c (by simp [hc])
    have hEa : extractMatch tol b.1 (a :: cs) =
        (extractMatch tol b.1 cs).map (fun p => (p.1, a :: p.2)) :=
      extractMatch_cons_neg tol b.1 a cs hb
    cases hE : extractMatch tol b.1 cs with
    | none =>
      rw [hE] at hEa
      simp only [Option.map_none'] at hEa
      rw [gd_cons_none tol b brest (a :: cs) hEa,
        gd_cons_none tol b brest cs hE]
      exact IH cs hrest
    | some p =>
      rw [hE] at hEa
      simp only [Option.map_some'] at hEa
      rw [gd_cons_some tol b brest (a :: cs) p.1 (a :: p.2) hEa,
        gd_cons_some tol b brest cs p.1 p.2 (by rw [hE])]
      rw [IH p.2 hrest]

/-- When the row peak m is the first row within tolerance of the
distinguished column peak a, the greedy run pairs m with a and the rest of
the run happens on the reduced lists. -/
lemma gd_takes_first_col (tol : ℚ) (a : ℚ × ℚ) :
    ∀ (l1 : Peaks) (m : ℚ × ℚ) (l2 cs : Peaks),
      |m.1 - a.1| ≤ tol → (∀ b ∈ l1, ¬|b.1 - a.1| ≤ tol) →
      gd tol (l1 ++ m :: l2) (a :: cs) = m.2 * a.2 + gd tol (l1 ++ l2) cs := by
  intro l1
  induction l1 with
  | nil =>
    intro m l2 cs hm _
    rw [List.nil_append, List.nil_append,
      gd_cons_some tol m l2 (a :: cs) a.2 cs
        (extractMatch_cons_pos tol m.1 a cs hm)]
  | cons b brest IH =>
    intro m l2 cs hm h
    have hb : ¬|b.1 - a.1| ≤ tol := h b (by simp)
    have hrest : ∀ c ∈ brest, ¬|c.1 - a.1| ≤ tol := fun c hc => h c (by simp [hc])
    rw [List.cons_append, List.cons_append]
    have hEa : extractMatch tol b.1 (a :: cs) =
        (extractMatch tol b.1 cs).map (fun p => (p.1, a :: p.2)) :=
      extractMatch_cons_neg tol b.1 a cs hb
    cases hE : extractMatch tol b.1 cs with
    | none =>
      rw [hE] at hEa
      simp only [Option.map_none'] at hEa
      rw [gd_cons_none tol b (brest ++ m :: l2) (a :: cs) hEa,
        gd_cons_none tol b (brest ++ l2) cs hE]
      exact IH m l2 cs hm hrest
    | some p =>
      rw [hE] at hEa
      simp only [Option.map_some'] at hEa
      rw [gd_cons_some tol b (brest ++ m :: l2) (a :: cs) p.1 (a :: p.2) hEa,
        gd_cons_some tol b (brest ++ l2) cs p.1 p.2 (by rw [hE])]
      rw [IH m l2 p.2 hm hrest]
      ring

/-- The greedy matched dot product is symmetric in the two spectra: the
matching produced by iterating over A against B consists of the same
pairs as the matching produced by iterating over B against A. -/
lemma gd_comm (tol : ℚ) : ∀ p1 p2 : Peaks, gd tol p1 p2 = gd tol p2 p1 := by
  intro p1
  induction p1 with
  | nil => intro p2; rw [gd_nil_right]; rfl
  | cons a arest IH =>
    intro p2
    cases hE : extractMatch tol a.1 p2 with
    | none =>
      have hno := extractMatch_eq_none tol a.1 p2 hE
      have hno2 : ∀ b ∈ p2, ¬|b.1 - a.1| ≤ tol := by
        intro b hb
        rw [abs_sub_comm]
        exact hno b hb
      rw [gd_cons_none tol a arest p2 hE, IH p2,
        gd_cons_no_match tol a p2 arest hno2]
    | some p =>
      obtain ⟨l1, b, l2, hsplit, hrem, hy, htol, hfirst⟩ :=
        extractMatch_eq_some tol a.1 p2 p.1 p.2 (by rw [hE])
      have htol2 : |b.1 - a.1| ≤ tol := by rw [abs_sub_comm]; exact htol
      have hfirst2 : ∀ c ∈ l1, ¬|c.1 - a.1| ≤ tol := by
        intro c hc
        rw [abs_sub_comm]
        exact hfirst c hc
      calc gd tol (a :: arest) p2
          = a.2 * p.1 + gd tol arest p.2 :=
            gd_cons_some tol a arest p2 p.1 p.2 hE
        _ = a.2 * p.1 + gd tol p.2 arest := by rw [IH p.2]
        _ = b.2 * a.2 + gd tol (l1 ++ l2) arest := by rw [hy, hrem]; ring
        _ = gd tol (l1 ++ b :: l2) (a :: arest) :=
            (gd_takes_first_col tol a l1 b l2 arest htol2 hfirst2).symm
        _ = gd tol p2 (a :: arest) := by rw [← hsplit]

lemma normSq_nil : normSq [] = 0 := rfl

lemma normSq_cons (a : ℚ × ℚ) (p : Peaks) :
    normSq (a :: p) = a.2 ^ 2 + normSq p := by
  simp [normSq]

lemma normSq_append (l1 l2 : Peaks) :
    normSq (l1 ++ l2) = normSq l1 + normSq l2 := by
  simp [normSq]

lemma normSq_nonneg (p : Peaks) : 0 ≤ normSq p := by
  induction p with
  | nil => simp [normSq]
  | cons a arest IH =>
    rw [normSq_cons]
    have := sq_nonneg a.2
    linarith

/-- Matching a spectrum against itself pairs every peak with itself: the
peak at each position is at distance zero from itself, and all earlier
positions are already matched when it is processed, so the greedy dot
product equals the squared norm. -/
lemma gd_self (tol : ℚ) (htol : 0 ≤ tol) : ∀ p : Peaks, gd tol p p = normSq p := by
  intro p
  induction p with
  | nil => rfl
  | cons a arest IH =>
    have hself : |a.1 - a.1| ≤ tol := by simpa using htol
    rw [gd_cons_some tol a arest (a :: arest) a.2 arest
      (extractMatch_cons_pos tol a.1 a arest hself), IH, normSq_cons]
    ring

lemma gd_nonneg (tol : ℚ) :
    ∀ p1 p2 : Peaks, (∀ x ∈ p1, 0 ≤ x.2) → (∀ x ∈ p2, 0 ≤ x.2) →
      0 ≤ gd tol p1 p2 := by
  intro p1
  induction p1 with
  | nil => intro p2 _ _; simp [gd]
  | cons a arest IH =>
    intro p2 h1 h2
    have ha : 0 ≤ a.2 := h1 a (by simp)
    have h1r : ∀ x ∈ arest, 0 ≤ x.2 := fun x hx => h1 x (by simp [hx])
    cases hE : extractMatch tol a.1 p2 with
    | none =>
      rw [gd_cons_none tol a arest p2 hE]
      exact IH p2 h1r h2
    | some p =>
      obtain ⟨l1, b, l2, hsplit, hrem, hy, _, _⟩ :=
        extractMatch_eq_some tol a.1 p2 p.1 p.2 (by rw [hE])
      have hb : 0 ≤ p.1 := by
        rw [← hy]
        exact h2 b (by rw [hsplit]; simp)
      have h2r : ∀ x ∈ p.2, 0 ≤ x.2 := by
        intro x hx
        rw [hrem] at hx
        apply h2
        rw [hsplit]
        rcases List.mem_append.mp hx with h | h
        · exact List.mem_append.mpr (Or.inl h)
        · exact List.mem_append.mpr (Or.inr (List.mem_cons_of_mem b h))
      rw [gd_cons_some tol a arest p2 p.1 p.2 hE]
      have := IH p.2 h1r h2r
      have := mul_nonneg ha hb
      linarith

lemma rat_le_of_sq_le_sq (u v : ℚ) (hu : 0 ≤ u) (hv : 0 ≤ v) (h : u ^ 2 ≤ v ^ 2) :
    u ≤ v := by
  by_contra hc
  push_neg at hc
  have h2 : v ^ 2 < u ^ 2 := by nlinarith
  exact absurd h (not_le.mpr h2)

/-- Cauchy Schwarz bound for the greedy matched dot product: the matched
pairs form a one to one partial pairing, so the accumulated dot product is
at most the product of the full norms. -/
lemma gd_sq_le (tol : ℚ) :
    ∀ p1 p2 : Peaks, (∀ x ∈ p1, 0 ≤ x.2) → (∀ x ∈ p2, 0 ≤ x.2) →
      gd tol p1 p2 ^ 2 ≤ normSq p1 * normSq p2 := by
  intro p1
  induction p1 with
  | nil => intro p2 _ _; simp [gd, normSq]
  | cons a arest IH =>
    intro p2 h1 h2
    have ha : 0 ≤ a.2 := h1 a (by simp)
    have h1r : ∀ x ∈ arest, 0 ≤ x.2 := fun x hx => h1 x (by simp [hx])
    cases hE : extractMatch tol a.1 p2 with
    | none =>
      rw [gd_cons_none tol a arest p2 hE, normSq_cons]
      have hIH := IH p2 h1r h2
      have hN2 := normSq_nonneg p2
      nlinarith [sq_nonneg a.2]
    | some p =>
      obtain ⟨l1, b, l2, hsplit, hrem, hy, _, _⟩ :=
        extractMatch_eq_some tol a.1 p2 p.1 p.2 (by rw [hE])
      have hb : 0 ≤ p.1 := by
        rw [← hy]
        exact h2 b (by rw [hsplit]; simp)
      have h2r : ∀ x ∈ p.2, 0 ≤ x.2 := by
        intro x hx
        rw [hrem] at hx
        apply h2
        rw [hsplit]
        rcases List.mem_append.mp hx with h | h
        · exact List.mem_append.mpr (Or.inl h)
        · exact List.mem_append.mpr (Or.inr (List.mem_cons_of_mem b h))
      have hIH := IH p.2 h1r h2r
      have hd0 := gd_nonneg tol arest p.2 h1r h2r
      have hNsplit : normSq p2 = p.1 ^ 2 + normSq p.2 := by
        rw [hsplit, hrem, normSq_append, normSq_cons, normSq_append, hy]
        ring
      rw [gd_cons_some tol a arest p2 p.1 p.2 hE, normSq_cons, hNsplit]
      have hN1 : 0 ≤ normSq arest := normSq_nonneg arest
      have hN2 : 0 ≤ normSq p.2 := normSq_nonneg p.2
      have hsq : (2 * (a.2 * p.1) * gd tol arest p.2) ^ 2 ≤
          (a.2 ^ 2 * normSq p.2 + normSq arest * p.1 ^ 2) ^ 2 := by
        nlinarith [hIH, sq_nonneg (a.2 ^ 2 * normSq p.2 - normSq arest * p.1 ^ 2),
          sq_nonneg (a.2 * p.1), mul_nonneg (mul_nonneg ha hb) hd0]
      have h2ad : 0 ≤ 2 * (a.2 * p.1) * gd tol arest p.2 := by
        have := mul_nonneg (mul_nonneg ha hb) hd0
        linarith
      have hrhs0 : 0 ≤ a.2 ^ 2 * normSq p.2 + normSq arest * p.1 ^ 2 := by
        have := mul_nonneg (sq_nonneg a.2) hN2
        have := mul_nonneg hN1 (sq_nonneg p.1)
        linarith
      have hkey := rat_le_of_sq_le_sq _ _ h2ad hrhs0 hsq
      nlinarith [hIH, hkey]

lemma dotProduct_nonneg_of (p1 p2 : Peaks)
    (h1 : ∀ x ∈ p1, 0 ≤ x.2) (h2 : ∀ x ∈ p2, 0 ≤ x.2) :
    0 ≤ dotProduct MZ_TOLERANCE_DA p1 p2 := by
  rw [dotProduct_eq_gd]
  exact gd_nonneg MZ_TOLERANCE_DA p1 p2 h1 h2

lemma dotProduct_sq_le_of (p1 p2 : Peaks)
    (h1 : ∀ x ∈ p1, 0 ≤ x.2) (h2 : ∀ x ∈ p2, 0 ≤ x.2) :
    dotProduct MZ_TOLERANCE_DA p1 p2 ^ 2 ≤ normSq p1 * normSq p2 := by
  rw [dotProduct_eq_gd]
  exact gd_sq_le MZ_TOLERANCE_DA p1 p2 h1 h2

/-- C1: for every pair of spectra (peak lists with nonnegative
intensities, per the data model invariant), the cosine score is a real
number in the closed interval from 0 to 1, and whenever either full
intensity vector has zero squared L2 norm (empty peak list or all zero
intensities) the score is exactly 0 with no division performed. -/
theorem cosine_similarity_range (p1 p2 : Peaks)
    (h1 : ∀ x ∈ p1, 0 ≤ x.2) (h2 : ∀ x ∈ p2, 0 ≤ x.2) :
    0 ≤ cosine_similarity p1 p2 ∧ cosine_similarity p1 p2 ≤ 1 ∧
      ((normSq p1 = 0 ∨ normSq p2 = 0) → cosine_similarity p1 p2 = 0) := by
  unfold cosine_similarity
  by_cases hg : normSq p1 ≠ 0 ∧ normSq p2 ≠ 0
  · rw [if_pos hg]
    have hq1 : 0 < normSq p1 := lt_of_le_of_ne (normSq_nonneg p1) (Ne.symm hg.1)
    have hq2 : 0 < normSq p2 := lt_of_le_of_ne (normSq_nonneg p2) (Ne.symm hg.2)
    have hN1 : (0 : ℝ) < (normSq p1 : ℝ) := by exact_mod_cast hq1
    have hN2 : (0 : ℝ) < (normSq p2 : ℝ) := by exact_mod_cast hq2
    have hs1 : 0 < Real.sqrt (normSq p1) := Real.sqrt_pos.mpr hN1
    have hs2 : 0 < Real.sqrt (normSq p2) := Real.sqrt_pos.mpr hN2
    have hden : 0 < Real.sqrt (normSq p1) * Real.sqrt (normSq p2) := mul_pos hs1 hs2
    have hdot0 : (0 : ℝ) ≤ (dotProduct MZ_TOLERANCE_DA p1 p2 : ℝ) := by
      exact_mod_cast dotProduct_nonneg_of p1 p2 h1 h2
    refine ⟨div_nonneg hdot0 (le_of_lt hden), ?_, fun hzero => ?_⟩
    · rw [div_le_one hden, ← Real.sqrt_mul (le_of_lt hN1)]
      apply Real.le_sqrt_of_sq_le
      exact_mod_cast dotProduct_sq_le_of p1 p2 h1 h2
    · rcases hzero with hz | hz
      · exact absurd hz hg.1
      · exact absurd hz hg.2
  · rw [if_neg hg]
    exact ⟨le_refl 0, by norm_num, fun _ => rfl⟩

/-- C1 witness: the bounds evaluated at concrete spectra, among them one
with an all zero intensity vector. -/
theorem cosine_similarity_range_witness :
    (0 ≤ cosine_similarity [((1 : ℚ), (3 : ℚ))] [((1 : ℚ), (4 : ℚ))] ∧
      cosine_similarity [((1 : ℚ), (3 : ℚ))] [((1 : ℚ), (4 : ℚ))] ≤ 1) ∧
    cosine_similarity [((1 : ℚ), (3 : ℚ))] [((1 : ℚ), (0 : ℚ))] = 0 := by
  refine ⟨?_, ?_⟩
  · have h := cosine_similarity_range [((1 : ℚ), (3 : ℚ))] [((1 : ℚ), (4 : ℚ))]
      (by decide) (by decide)
    exact ⟨h.1, h.2.1⟩
  · have h := cosine_similarity_range [((1 : ℚ), (3 : ℚ))] [((1 : ℚ), (0 : ℚ))]
      (by decide) (by decide)
    exact h.2.2 (Or.inr (by norm_num [normSq]))

/-- C2: the peak matched cosine score is symmetric, exactly (not only up
to floating point tolerance): the greedy one to one matching driven from
either side pairs the same peaks. -/
theorem cosine_similarity_comm (p1 p2 : Peaks) :
    cosine_similarity p1 p2 = cosine_similarity p2 p1 := by
  unfold cosine_similarity
  by_cases h1 : normSq p1 ≠ 0
  · by_cases h2 : normSq p2 ≠ 0
    · rw [if_pos ⟨h1, h2⟩, if_pos ⟨h2, h1⟩, dotProduct_eq_gd, dotProduct_eq_gd,
        gd_comm, mul_comm (Real.sqrt (normSq p1)) (Real.sqrt (normSq p2))]
    · rw [if_neg (by tauto), if_neg (by tauto)]
  · rw [if_neg (by tauto), if_neg (by tauto)]

/-- C3: a spectrum with nonzero intensity norm compared against itself
scores exactly 1: the greedy matching pairs every peak with itself even
when distinct peaks lie within the mass tolerance of each other. -/
theorem cosine_similarity_self (p : Peaks) (h : normSq p ≠ 0) :
    cosine_similarity p p = 1 := by
  unfold cosine_similarity
  rw [if_pos ⟨h, h⟩, dotProduct_eq_gd,
    gd_self MZ_TOLERANCE_DA (by norm_num [MZ_TOLERANCE_DA]) p]
  have hq : 0 < normSq p := lt_of_le_of_ne (normSq_nonneg p) (Ne.symm h)
  have hN : (0 : ℝ) < (normSq p : ℝ) := by exact_mod_cast hq
  rw [Real.mul_self_sqrt (le_of_lt hN)]
  exact div_self (ne_of_gt hN)

/-- C3 witness: self similarity at a concrete spectrum whose two peaks
lie within the mass tolerance of each other. -/
theorem cosine_similarity_self_witness :
    cosine_similarity [((100 : ℚ), (5 : ℚ)), ((10001 / 100 : ℚ), (7 : ℚ))]
      [((100 : ℚ), (5 : ℚ)), ((10001 / 100 : ℚ), (7 : ℚ))] = 1 :=
  cosine_similarity_self [((100 : ℚ), (5 : ℚ)), ((10001 / 100 : ℚ), (7 : ℚ))]
    (by norm_num [normSq])

/-- Comparison definition following the words of the spec claim C4, which
names ascending mass to charge order as the canonical processing order:
both peak lists are sorted by ascending mass before the same greedy
scoring.  The code itself iterates over the peak dicts in stored
(insertion) order, so the two definitions are compared below. -/
noncomputable def cosine_similarity_ascending (p1 p2 : Peaks) : ℝ :=
  cosine_similarity (p1.insertionSort (fun x y => x.1 ≤ y.1))
    (p2.insertionSort (fun x y => x.1 ≤ y.1))

/-- C4 counterexample: on a spectrum whose stored peak order is not
ascending in mass, the code scores differently from the ascending order
processing described by the claim.  Spectrum A holds peaks at 100.01 and
100.00 in that stored order, spectrum B one peak at 100.005; the code
matches 100.01 first (dot product 35), ascending processing matches
100.00 first (dot product 70). -/
theorem cosine_similarity_order_counterexample :
    cosine_similarity [((10001 / 100 : ℚ), (5 : ℚ)), ((100 : ℚ), (10 : ℚ))]
        [((20001 / 200 : ℚ), (7 : ℚ))] ≠
      cosine_similarity_ascending
        [((10001 / 100 : ℚ), (5 : ℚ)), ((100 : ℚ), (10 : ℚ))]
        [((20001 / 200 : ℚ), (7 : ℚ))] := by
  have hsort : List.insertionSort (fun x y : ℚ × ℚ => x.1 ≤ y.1)
      [((10001 / 100 : ℚ), (5 : ℚ)), ((100 : ℚ), (10 : ℚ))] =
      [((100 : ℚ), (10 : ℚ)), ((10001 / 100 : ℚ), (5 : ℚ))] := by
    norm_num [List.insertionSort, List.orderedInsert]
  have hsortB : List.insertionSort (fun x y : ℚ × ℚ => x.1 ≤ y.1)
      [((20001 / 200 : ℚ), (7 : ℚ))] = [((20001 / 200 : ℚ), (7 : ℚ))] := by
    norm_num [List.insertionSort, List.orderedInsert]
  have hd1 : dotProduct MZ_TOLERANCE_DA
      [((10001 / 100 : ℚ), (5 : ℚ)), ((100 : ℚ), (10 : ℚ))]
      [((20001 / 200 : ℚ), (7 : ℚ))] = 35 := by
    norm_num [dotProduct, dotAux, scanMatch, MZ_TOLERANCE_DA, abs_le]
  have hd2 : dotProduct MZ_TOLERANCE_DA
      [((100 : ℚ), (10 : ℚ)), ((10001 / 100 : ℚ), (5 : ℚ))]
      [((20001 / 200 : ℚ), (7 : ℚ))] = 70 := by
    norm_num [dotProduct, dotAux, scanMatch, MZ_TOLERANCE_DA, abs_le]
  have hn1 : normSq [((10001 / 100 : ℚ), (5 : ℚ)), ((100 : ℚ), (10 : ℚ))] = 125 := by
    norm_num [normSq]
  have hn1s : normSq [((100 : ℚ), (10 : ℚ)), ((10001 / 100 : ℚ), (5 : ℚ))] = 125 := by
    norm_num [normSq]
  have hn2 : normSq [((20001 / 200 : ℚ), (7 : ℚ))] = 49 := by
    norm_num [normSq]
  unfold cosine_similarity_ascending
  rw [hsort, hsortB]
  unfold cosine_similarity
  rw [if_pos ⟨by rw [hn1]; norm_num, by rw [hn2]; norm_num⟩,
    if_pos ⟨by rw [hn1s]; norm_num, by rw [hn2]; norm_num⟩,
    hd1, hd2, hn1, hn1s, hn2]
  have hden : (0 : ℝ) < Real.sqrt ((125 : ℚ) : ℝ) * Real.sqrt ((49 : ℚ) : ℝ) := by
    apply mul_pos <;> rw [Real.sqrt_pos] <;> norm_num
  intro h
  rw [div_eq_div_iff (ne_of_gt hden) (ne_of_gt hden)] at h
  have h2 := mul_right_cancel₀ (ne_of_gt hden) h
  norm_num at h2

/-- C4 amended: the scorer processes the peaks of A in their stored
(insertion) order, not in ascending mass order; on spectra whose stored
order is already ascending the two coincide, and the concrete scenario of
the claim evaluates to 100 divided by the product of the norms sqrt 500
and sqrt 125. -/
theorem cosine_similarity_order_amended :
    (∀ p1 p2 : Peaks,
      List.Sorted (fun x y : ℚ × ℚ => x.1 ≤ y.1) p1 →
      List.Sorted (fun x y : ℚ × ℚ => x.1 ≤ y.1) p2 →
      cosine_similarity_ascending p1 p2 = cosine_similarity p1 p2)
    ∧ cosine_similarity [((100 : ℚ), (10 : ℚ)), ((200 : ℚ), (20 : ℚ))]
        [((20001 / 200 : ℚ), (10 : ℚ)), ((300 : ℚ), (5 : ℚ))] =
      100 / (Real.sqrt 500 * Real.sqrt 125) := by
  constructor
  · intro p1 p2 h1 h2
    unfold cosine_similarity_ascending
    rw [List.Sorted.insertionSort_eq h1, List.Sorted.insertionSort_eq h2]
  · have hd : dotProduct MZ_TOLERANCE_DA
        [((100 : ℚ), (10 : ℚ)), ((200 : ℚ), (20 : ℚ))]
        [((20001 / 200 : ℚ), (10 : ℚ)), ((300 : ℚ), (5 : ℚ))] = 100 := by
      norm_num [dotProduct, dotAux, scanMatch, MZ_TOLERANCE_DA, abs_le]
    have hn1 : normSq [((100 : ℚ), (10 : ℚ)), ((200 : ℚ), (20 : ℚ))] = 500 := by
      norm_num [normSq]
    have hn2 : normSq [((20001 / 200 : ℚ), (10 : ℚ)), ((300 : ℚ), (5 : ℚ))] = 125 := by
      norm_num [normSq]
    unfold cosine_similarity
    rw [if_pos ⟨by rw [hn1]; norm_num, by rw [hn2]; norm_num⟩, hd, hn1, hn2]
    norm_num

/-- C4 amended witness: coincidence of stored order and ascending order
scoring at a concrete pair of sorted spectra. -/
theorem cosine_similarity_order_amended_witness :
    cosine_similarity_ascending [((1 : ℚ), (2 : ℚ)), ((3 : ℚ), (4 : ℚ))]
        [((1 : ℚ), (5 : ℚ))] =
      cosine_similarity [((1 : ℚ), (2 : ℚ)), ((3 : ℚ), (4 : ℚ))]
        [((1 : ℚ), (5 : ℚ))] :=
  cosine_similarity_order_amended.1 _ _
    (by norm_num [List.sorted_cons]) (by norm_num [List.sorted_cons])

/-- Additive epsilon inside the logarithm, script_06 line 23. -/
def EPS : ℚ := 1 / 10 ^ 12

/-- Spectral entropy of one spectrum, script_06 lines 13 to 23: keep the
intensities that are strictly positive, return 0.0 when at most one
remains, otherwise normalize them by their sum to a probability
distribution and return the Shannon entropy, with EPS added inside the
logarithm. -/
noncomputable def calculate_spectral_entropy (peaks : Peaks) : ℝ :=
  let p := (peaks.map Prod.snd).filter (fun x => decide (0 < x))
  if p.length ≤ 1 then 0
  else -((p.map (fun x => ((x / p.sum : ℚ) : ℝ) *
      Real.log (((x / p.sum : ℚ) : ℝ) + (EPS : ℝ)))).sum)

/-- Closed form of the entropy of a spectrum with exactly two positive
peaks. -/
lemma entropy_pair (m1 m2 a b : ℚ) (ha : 0 < a) (hb : 0 < b) :
    calculate_spectral_entropy [(m1, a), (m2, b)] =
      -(((a / (a + b) : ℚ) : ℝ) * Real.log (((a / (a + b) : ℚ) : ℝ) + (EPS : ℝ))
        + ((b / (a + b) : ℚ) : ℝ) * Real.log (((b / (a + b) : ℚ) : ℝ) + (EPS : ℝ))) := by
  unfold calculate_spectral_entropy
  simp only [List.map_cons, List.map_nil, List.filter_cons, List.filter_nil,
    decide_eq_true_eq, ha, hb, if_true, List.sum_cons, List.sum_nil, add_zero,
    List.length_cons, List.length_nil]
  norm_num

lemma log_ge_one_sub_inv (x : ℝ) (hx : 0 < x) : 1 - 1 / x ≤ Real.log x := by
  have h := Real.log_le_sub_one_of_pos (inv_pos.mpr hx)
  rw [Real.log_inv] at h
  have hinv : x⁻¹ = 1 / x := (one_div x).symm
  rw [hinv] at h
  linarith

lemma exp_neg_fortynine_le : Real.exp (-49) ≤ 10001 / 10 ^ 16 := by
  have h2 : (2 : ℝ) ≤ Real.exp 1 := by
    have := Real.add_one_le_exp (1 : ℝ)
    linarith
  have h49 : (2 : ℝ) ^ (49 : ℕ) ≤ Real.exp 1 ^ (49 : ℕ) :=
    pow_le_pow_left₀ (by norm_num) h2 49
  have hE49 : Real.exp 1 ^ (49 : ℕ) = Real.exp 49 := by
    rw [← Real.exp_nat_mul]
    norm_num
  have hbig : (10 ^ 16 : ℝ) / 10001 ≤ Real.exp 49 := by
    rw [← hE49]
    calc (10 ^ 16 : ℝ) / 10001 ≤ (2 : ℝ) ^ (49 : ℕ) := by norm_num
    _ ≤ Real.exp 1 ^ (49 : ℕ) := h49
  have hpos : (0 : ℝ) < (10 ^ 16 : ℝ) / 10001 := by norm_num
  rw [Real.exp_neg]
  have hinv := inv_anti₀ hpos hbig
  calc (Real.exp 49)⁻¹ ≤ ((10 ^ 16 : ℝ) / 10001)⁻¹ := hinv
  _ = 10001 / 10 ^ 16 := by norm_num

/-- The code entropy of a spectrum with one huge and one tiny positive
intensity is strictly negative: the epsilon inside the logarithm pushes
the large probability above 1, and the resulting negative term dominates
the small positive term. -/
lemma entropy_skew_neg :
    calculate_spectral_entropy [((1 : ℚ), (10 ^ 16 - 1 : ℚ)), ((2 : ℚ), (1 : ℚ))] < 0 := by
  have ha : (0 : ℚ) < 10 ^ 16 - 1 := by norm_num
  rw [entropy_pair 1 2 (10 ^ 16 - 1) 1 ha one_pos]
  have hsum : (10 ^ 16 - 1 : ℚ) + 1 = 10 ^ 16 := by ring
  rw [hsum]
  have e1 : (((10 ^ 16 - 1 : ℚ) / 10 ^ 16 : ℚ) : ℝ) = 1 - 1 / 10 ^ 16 := by
    push_cast
    norm_num
  have e2 : (((1 : ℚ) / 10 ^ 16 : ℚ) : ℝ) = 1 / 10 ^ 16 := by
    push_cast
    norm_num
  have e3 : (EPS : ℝ) = 1 / 10 ^ 12 := by norm_num [EPS]
  rw [e1, e2, e3]
  have harg1 : (1 : ℝ) - 1 / 10 ^ 16 + 1 / 10 ^ 12 = 1 + 9999 / 10 ^ 16 := by norm_num
  have harg2 : (1 : ℝ) / 10 ^ 16 + 1 / 10 ^ 12 = 10001 / 10 ^ 16 := by norm_num
  rw [harg1, harg2, neg_lt_zero]
  have hx0 : (0 : ℝ) < 1 + 9999 / 10 ^ 16 := by norm_num
  have hL1 : (4999 / 10 ^ 16 : ℝ) ≤ Real.log (1 + 9999 / 10 ^ 16) := by
    have h1 := log_ge_one_sub_inv (1 + 9999 / 10 ^ 16) hx0
    have h2 : (1 : ℝ) / (1 + 9999 / 10 ^ 16) ≤ 1 - 4999 / 10 ^ 16 := by
      rw [div_le_iff₀ hx0]
      norm_num
    linarith
  have hL2 : (-49 : ℝ) ≤ Real.log (10001 / 10 ^ 16) := by
    rw [Real.le_log_iff_exp_le (by norm_num)]
    exact exp_neg_fortynine_le
  have hA : (9 / 10 : ℝ) ≤ 1 - 1 / 10 ^ 16 := by norm_num
  have hA0 : (0 : ℝ) ≤ 1 - 1 / 10 ^ 16 := by norm_num
  have hT1 : (9 / 10 : ℝ) * (4999 / 10 ^ 16) ≤
      (1 - 1 / 10 ^ 16) * Real.log (1 + 9999 / 10 ^ 16) :=
    mul_le_mul hA hL1 (by norm_num) hA0
  have hT2 : (1 / 10 ^ 16 : ℝ) * (-49) ≤
      (1 / 10 ^ 16 : ℝ) * Real.log (10001 / 10 ^ 16) :=
    mul_le_mul_of_nonneg_left hL2 (by norm_num)
  have hpos : (0 : ℝ) < (9 / 10) * (4999 / 10 ^ 16) + (1 / 10 ^ 16) * (-49) := by
    norm_num
  linarith

/-- The code entropy of two equal positive peaks: the epsilon inside the
logarithm shifts the exact value away from log 2. -/
lemma entropy_two_equal (m1 m2 c : ℚ) (hc : 0 < c) :
    calculate_spectral_entropy [(m1, c), (m2, c)] =
      Real.log 2 - Real.log (1 + 2 * (EPS : ℝ)) := by
  rw [entropy_pair m1 m2 c c hc hc]
  have hq : c / (c + c) = (1 / 2 : ℚ) := by
    have hc2 : c + c ≠ 0 := by positivity
    field_simp
    ring
  rw [hq]
  have hhalf : ((1 / 2 : ℚ) : ℝ) = 1 / 2 := by norm_num
  rw [hhalf]
  have heps0 : (0 : ℝ) ≤ (EPS : ℝ) := by norm_num [EPS]
  have hx : (1 / 2 : ℝ) + (EPS : ℝ) = (1 + 2 * (EPS : ℝ)) / 2 := by ring
  rw [hx, Real.log_div (by linarith) (by norm_num)]
  ring

/-- C5 counterexample: the claim fails on the code in two places.  With
two equal positive peaks the returned value is not log 2 (the epsilon
inside the logarithm shifts it), and with the skewed spectrum holding
intensities 10 to the 16 minus 1 and 1 the returned value is strictly
negative, refuting that the result is always at least 0. -/
theorem calculate_spectral_entropy_counterexample :
    calculate_spectral_entropy [((1 : ℚ), (1 : ℚ)), ((2 : ℚ), (1 : ℚ))] ≠ Real.log 2 ∧
    calculate_spectral_entropy [((1 : ℚ), (10 ^ 16 - 1 : ℚ)), ((2 : ℚ), (1 : ℚ))] < 0 := by
  constructor
  · rw [entropy_two_equal 1 2 1 one_pos]
    intro h
    have hlog : Real.log (1 + 2 * (EPS : ℝ)) = 0 := by linarith
    have heps : (EPS : ℝ) = 1 / 10 ^ 12 := by norm_num [EPS]
    have := Real.log_ne_zero_of_pos_of_ne_one
      (x := 1 + 2 * (EPS : ℝ)) (by rw [heps]; norm_num) (by rw [heps]; norm_num)
    exact this hlog
  · exact entropy_skew_neg

/-- C5 amended: the entropy drops peaks with nonpositive intensity and
returns 0.0 when fewer than two positive peaks remain (so exactly one
positive peak gives 0.0); for two peaks of equal positive intensity it
returns log 2 minus log of (1 plus 2 times 10 to the minus 12), a value
within 10 to the minus 11 of log 2 (approximately 0.6931); the result is
not always nonnegative: on extremely skewed intensity distributions the
epsilon inside the logarithm makes it slightly negative. -/
theorem calculate_spectral_entropy_amended :
    (∀ peaks : Peaks,
      ((peaks.map Prod.snd).filter (fun x => decide (0 < x))).length ≤ 1 →
      calculate_spectral_entropy peaks = 0)
    ∧ (∀ m1 m2 c : ℚ, 0 < c →
      calculate_spectral_entropy [(m1, c), (m2, c)] =
        Real.log 2 - Real.log (1 + 2 * (EPS : ℝ)))
    ∧ |(Real.log 2 - Real.log (1 + 2 * (EPS : ℝ))) - Real.log 2| ≤ 1 / 10 ^ 11
    ∧ calculate_spectral_entropy [((1 : ℚ), (10 ^ 16 - 1 : ℚ)), ((2 : ℚ), (1 : ℚ))] < 0 := by
  refine ⟨?_, entropy_two_equal, ?_, entropy_skew_neg⟩
  · intro peaks h
    unfold calculate_spectral_entropy
    simp only [if_pos h]
  · have heps : (EPS : ℝ) = 1 / 10 ^ 12 := by norm_num [EPS]
    have h1 : (1 : ℝ) ≤ 1 + 2 * (EPS : ℝ) := by rw [heps]; norm_num
    have hnn : 0 ≤ Real.log (1 + 2 * (EPS : ℝ)) := Real.log_nonneg h1
    have hub : Real.log (1 + 2 * (EPS : ℝ)) ≤ 2 * (EPS : ℝ) := by
      have := Real.log_le_sub_one_of_pos (x := 1 + 2 * (EPS : ℝ)) (by linarith)
      linarith
    have hgoal : Real.log 2 - Real.log (1 + 2 * (EPS : ℝ)) - Real.log 2 =
        -(Real.log (1 + 2 * (EPS : ℝ))) := by ring
    rw [hgoal, abs_neg, abs_of_nonneg hnn, heps]
    rw [heps] at hub
    linarith

/-- C5 amended witness: the zero value at a single positive peak and the
exact value at two equal peaks, at concrete inputs. -/
theorem calculate_spectral_entropy_amended_witness :
    calculate_spectral_entropy [((3 : ℚ), (2 : ℚ))] = 0 ∧
    calculate_spectral_entropy [((1 : ℚ), (4 : ℚ)), ((2 : ℚ), (4 : ℚ))] =
      Real.log 2 - Real.log (1 + 2 * (EPS : ℝ)) :=
  ⟨calculate_spectral_entropy_amended.1 [((3 : ℚ), (2 : ℚ))]
      (by norm_num [List.filter]),
   calculate_spectral_entropy_amended.2.1 1 2 4 (by norm_num)⟩

/-- Metadata of one loaded spectrum, script_03: precursor mass to charge
and retention time as read from the harmonized metadata; none models a
missing entry. -/
structure SpectrumMeta where
  precursor_mz : Option ℚ
  retention_time : Option ℚ
deriving DecidableEq, Inhabited

/-- Seed test of script_03 lines 61 to 66.  Python tests the truthiness
of curr_mz and curr_rt, so a missing value and a value equal to 0 are
both skipped; Option.getD 0 collapses a missing value to 0, which the
inequality with 0 then rejects, exactly as the Python guard does.  The
window test uses the fixed tolerances 0.005 and 2.0 with strict
inequality. -/
def isSeedMatch (target_mz target_rt : ℚ) (s : SpectrumMeta) : Prop :=
  s.precursor_mz.getD 0 ≠ 0 ∧ s.retention_time.getD 0 ≠ 0 ∧
    |s.precursor_mz.getD 0 - target_mz| < 5 / 1000 ∧
    |s.retention_time.getD 0 - target_rt| < 2

instance (target_mz target_rt : ℚ) (s : SpectrumMeta) :
    Decidable (isSeedMatch target_mz target_rt s) := by
  unfold isSeedMatch
  infer_instance

/-- Scan for the seed index, script_03 lines 58 to 69: first spectrum in
input order passing the seed test, with its index. -/
def findSeedAux (target_mz target_rt : ℚ) : List SpectrumMeta → ℕ → Option ℕ
  | [], _ => none
  | s :: rest, i =>
    if isSeedMatch target_mz target_rt s then some i
    else findSeedAux target_mz target_rt rest (i + 1)

/-- Seed search over the whole collection, script_03 lines 58 to 69. -/
def findSeed (target_mz target_rt : ℚ) (specs : List SpectrumMeta) : Option ℕ :=
  findSeedAux target_mz target_rt specs 0

lemma findSeedAux_some (target_mz target_rt : ℚ) :
    ∀ (l : List SpectrumMeta) (k i : ℕ),
      findSeedAux target_mz target_rt l k = some i →
      k ≤ i ∧ i - k < l.length ∧
        isSeedMatch target_mz target_rt (l.getD (i - k) default) ∧
        ∀ j, j < i - k → ¬ isSeedMatch target_mz target_rt (l.getD j default) := by
  intro l
  induction l with
  | nil => intro k i h; simp [findSeedAux] at h
  | cons s rest IH =>
    intro k i h
    by_cases hm : isSeedMatch target_mz target_rt s
    · rw [findSeedAux, if_pos hm] at h
      have hk : i = k := by exact (Option.some_inj.mp h).symm
      subst hk
      refine ⟨le_rfl, by simp, ?_, ?_⟩
      · simp [hm]
      · intro j hj
        simp at hj
    · rw [findSeedAux, if_neg hm] at h
      obtain ⟨hk, hlen, hmatch, hmin⟩ := IH (k + 1) i h
      have hik : k ≤ i := by omega
      have hsub : i - k = (i - (k + 1)) + 1 := by omega
      refine ⟨hik, by rw [hsub]; simpa using hlen, ?_, ?_⟩
      · rw [hsub, List.getD_cons_succ]
        exact hmatch
      · intro j hj
        cases j with
        | zero => simpa using hm
        | succ j2 =>
          rw [List.getD_cons_succ]
          exact hmin j2 (by omega)

lemma findSeedAux_none (target_mz target_rt : ℚ) :
    ∀ (l : List SpectrumMeta) (k : ℕ),
      (∀ s ∈ l, ¬ isSeedMatch target_mz target_rt s) →
      findSeedAux target_mz target_rt l k = none := by
  intro l
  induction l with
  | nil => intro k _; rfl
  | cons s rest IH =>
    intro k h
    rw [findSeedAux, if_neg (h s (by simp))]
    exact IH (k + 1) fun x hx => h x (by simp [hx])

/-- C10: a spectrum selected as seed has both metadata fields present and
nonzero and lies strictly inside the 0.005 Da and 2.0 s window, and no
earlier spectrum in input order passes the seed test; spectra with
missing metadata or metadata equal to 0 can never be selected, even
inside the window, because the seed test rejects them. -/
theorem findSeed_spec (specs : List SpectrumMeta) (target_mz target_rt : ℚ) (i : ℕ)
    (h : findSeed target_mz target_rt specs = some i) :
    i < specs.length ∧
    (∃ mz rt, (specs.getD i default).precursor_mz = some mz ∧
      (specs.getD i default).retention_time = some rt ∧
      mz ≠ 0 ∧ rt ≠ 0 ∧ |mz - target_mz| < 5 / 1000 ∧ |rt - target_rt| < 2) ∧
    ∀ j, j < i → ¬ isSeedMatch target_mz target_rt (specs.getD j default) := by
  obtain ⟨-, hlen, hmatch, hmin⟩ := findSeedAux_some target_mz target_rt specs 0 i h
  rw [Nat.sub_zero] at hlen hmatch hmin
  refine ⟨hlen, ?_, hmin⟩
  obtain ⟨hmz, hrt, hwmz, hwrt⟩ := hmatch
  cases hpm : (specs.getD i default).precursor_mz with
  | none => rw [hpm] at hmz; simp at hmz
  | some mz =>
    cases hprt : (specs.getD i default).retention_time with
    | none => rw [hprt] at hrt; simp at hrt
    | some rt =>
      rw [hpm] at hmz hwmz
      rw [hprt] at hrt hwrt
      simp only [Option.getD_some] at hmz hrt hwmz hwrt
      exact ⟨mz, rt, rfl, rfl, hmz, hrt, hwmz, hwrt⟩

/-- C10 witness: a collection whose first spectrum sits inside the target
window but carries a zero precursor mass, so the second spectrum becomes
the seed. -/
theorem findSeed_spec_witness :
    (∃ mz rt,
      (([⟨some 0, some 50⟩, ⟨some 100, some 50⟩] :
          List SpectrumMeta).getD 1 default).precursor_mz = some mz ∧
      (([⟨some 0, some 50⟩, ⟨some 100, some 50⟩] :
          List SpectrumMeta).getD 1 default).retention_time = some rt ∧
      mz ≠ 0 ∧ rt ≠ 0 ∧ |mz - 100| < 5 / 1000 ∧ |rt - 50| < 2) ∧
    ∀ j, j < 1 → ¬ isSeedMatch 100 50
      (([⟨some 0, some 50⟩, ⟨some 100, some 50⟩] : List SpectrumMeta).getD j default) := by
  have h := findSeed_spec [⟨some 0, some 50⟩, ⟨some 100, some 50⟩] 100 50 1 ?_
  · exact ⟨h.2.1, h.2.2⟩
  · rw [findSeed, findSeedAux, if_neg ?_, findSeedAux, if_pos ?_]
    · unfold isSeedMatch
      norm_num
    · unfold isSeedMatch
      norm_num

/-- Inner loop of the breadth first expansion, script_03 lines 84 to 89:
scan all spectra in index order; indices already selected are skipped; an
unselected index whose similarity to the current spectrum reaches the
threshold is added to the selected set and appended to the queue.  The
similarity scorer (matchms CosineGreedy applied to the preprocessed
spectra, an external library call) is abstracted as the function sim. -/
def expandStep (sim : ℕ → ℕ → ℚ) (thr : ℚ) (n curr : ℕ)
    (sel : Finset ℕ) (q : List ℕ) : Finset ℕ × List ℕ :=
  (List.range n).foldl
    (fun st i =>
      if i ∈ st.1 then st
      else if thr ≤ sim curr i then (insert i st.1, st.2 ++ [i]) else st)
    (sel, q)

lemma expandFold_spec (sim : ℕ → ℕ → ℚ) (thr : ℚ) (curr : ℕ) :
    ∀ (L : List ℕ) (st : Finset ℕ × List ℕ),
      ∃ l : List ℕ,
        L.foldl (fun st i =>
          if i ∈ st.1 then st
          else if thr ≤ sim curr i then (insert i st.1, st.2 ++ [i]) else st) st =
          (st.1 ∪ l.toFinset, st.2 ++ l)
        ∧ l.Nodup ∧ ∀ x ∈ l, x ∈ L ∧ x ∉ st.1 ∧ thr ≤ sim curr x := by
  intro L
  induction L with
  | nil =>
    intro st
    exact ⟨[], by simp, List.nodup_nil, by simp⟩
  | cons i L IH =>
    intro st
    rw [List.foldl_cons]
    by_cases hi : i ∈ st.1
    · rw [if_pos hi]
      obtain ⟨l, h1, h2, h3⟩ := IH st
      exact ⟨l, h1, h2, fun x hx =>
        ⟨List.mem_cons_of_mem i (h3 x hx).1, (h3 x hx).2.1, (h3 x hx).2.2⟩⟩
    · rw [if_neg hi]
      by_cases hs : thr ≤ sim curr i
      · rw [if_pos hs]
        obtain ⟨l, h1, h2, h3⟩ := IH (insert i st.1, st.2 ++ [i])
        refine ⟨i :: l, ?_, ?_, ?_⟩
        · rw [h1]
          refine Prod.ext ?_ ?_
          · show insert i st.1 ∪ l.toFinset = st.1 ∪ (i :: l).toFinset
            rw [List.toFinset_cons, Finset.insert_union, Finset.union_insert]
          · show st.2 ++ [i] ++ l = st.2 ++ i :: l
            simp
        · refine List.Nodup.cons ?_ h2
          intro hil
          exact (h3 i hil).2.1 (Finset.mem_insert_self i st.1)
        · intro x hx
          rcases List.mem_cons.mp hx with hxi | hxl
          · subst hxi
            exact ⟨List.mem_cons_self x L, hi, hs⟩
          · obtain ⟨hmem, hnot, hthr⟩ := h3 x hxl
            refine ⟨List.mem_cons_of_mem i hmem, ?_, hthr⟩
            intro hxin
            exact hnot (Finset.mem_insert_of_mem hxin)
      · rw [if_neg hs]
        obtain ⟨l, h1, h2, h3⟩ := IH st
        exact ⟨l, h1, h2, fun x hx =>
          ⟨List.mem_cons_of_mem i (h3 x hx).1, (h3 x hx).2.1, (h3 x hx).2.2⟩⟩

lemma expandStep_spec (sim : ℕ → ℕ → ℚ) (thr : ℚ) (n curr : ℕ)
    (sel : Finset ℕ) (q : List ℕ) :
    ∃ l : List ℕ,
      expandStep sim thr n curr sel q = (sel ∪ l.toFinset, q ++ l) ∧ l.Nodup ∧
      ∀ x ∈ l, x < n ∧ x ∉ sel ∧ thr ≤ sim curr x := by
  obtain ⟨l, h1, h2, h3⟩ := expandFold_spec sim thr curr (List.range n) (sel, q)
  exact ⟨l, h1, h2, fun x hx =>
    ⟨List.mem_range.mp (h3 x hx).1, (h3 x hx).2.1, (h3 x hx).2.2⟩⟩

lemma expandFold_mem (sim : ℕ → ℕ → ℚ) (thr : ℚ) (curr : ℕ) :
    ∀ (L : List ℕ) (st : Finset ℕ × List ℕ) (y : ℕ), y ∈ L → thr ≤ sim curr y →
      y ∈ (L.foldl (fun st i =>
        if i ∈ st.1 then st
        else if thr ≤ sim curr i then (insert i st.1, st.2 ++ [i]) else st) st).1 := by
  intro L
  induction L with
  | nil => intro st y hy; simp at hy
  | cons i L IH =>
    intro st y hy hthr
    rw [List.foldl_cons]
    rcases List.mem_cons.mp hy with hyi | hyL
    · subst hyi
      by_cases hi : y ∈ st.1
      · rw [if_pos hi]
        obtain ⟨l, h1, _, _⟩ := expandFold_spec sim thr curr L st
        rw [h1]
        exact Finset.mem_union_left _ hi
      · rw [if_neg hi, if_pos hthr]
        obtain ⟨l, h1, _, _⟩ := expandFold_spec sim thr curr L (insert y st.1, st.2 ++ [y])
        rw [h1]
        exact Finset.mem_union_left _ (Finset.mem_insert_self y st.1)
    · by_cases hi : i ∈ st.1
      · rw [if_pos hi]
        exact IH st y hyL hthr
      · by_cases hs : thr ≤ sim curr i
        · rw [if_neg hi, if_pos hs]
          exact IH _ y hyL hthr
        · rw [if_neg hi, if_neg hs]
          exact IH st y hyL hthr

lemma expandStep_mem (sim : ℕ → ℕ → ℚ) (thr : ℚ) (n curr : ℕ)
    (sel : Finset ℕ) (q : List ℕ) (y : ℕ) (hy : y < n) (hthr : thr ≤ sim curr y) :
    y ∈ (expandStep sim thr n curr sel q).1 :=
  expandFold_mem sim thr curr (List.range n) (sel, q) y (List.mem_range.mpr hy) hthr

lemma expandStep_measure (sim : ℕ → ℕ → ℚ) (thr : ℚ) (n curr : ℕ)
    (sel : Finset ℕ) (rest : List ℕ) :
    2 * (Finset.range n \ (expandStep sim thr n curr sel rest).1).card +
        (expandStep sim thr n curr sel rest).2.length <
      2 * (Finset.range n \ sel).card + (curr :: rest).length := by
  obtain ⟨l, h1, h2, h3⟩ := expandStep_spec sim thr n curr sel rest
  rw [h1]
  have hsub : l.toFinset ⊆ Finset.range n \ sel := by
    intro x hx
    rw [List.mem_toFinset] at hx
    obtain ⟨h4, h5, _⟩ := h3 x hx
    exact Finset.mem_sdiff.mpr ⟨Finset.mem_range.mpr h4, h5⟩
  have hid : Finset.range n \ (sel ∪ l.toFinset) = (Finset.range n \ sel) \ l.toFinset := by
    ext x
    simp only [Finset.mem_sdiff, Finset.mem_union]
    tauto
  have hcard : (Finset.range n \ (sel ∪ l.toFinset)).card =
      (Finset.range n \ sel).card - l.toFinset.card := by
    rw [hid]
    exact Finset.card_sdiff hsub
  have hlen : l.toFinset.card = l.length := List.toFinset_card_of_nodup h2
  have hle : l.toFinset.card ≤ (Finset.range n \ sel).card := Finset.card_le_card hsub
  rw [hcard, hlen] at *
  simp only [List.length_append, List.length_cons]
  omega

/-- Breadth first expansion loop of script_03 lines 82 to 89: pop the
front of the queue, run the scan of all spectra against it, repeat until
the queue empties; the final selected index set is returned. -/
def expandLoop (sim : ℕ → ℕ → ℚ) (thr : ℚ) (n : ℕ)
    (sel : Finset ℕ) (q : List ℕ) : Finset ℕ :=
  match q with
  | [] => sel
  | curr :: rest =>
    expandLoop sim thr n (expandStep sim thr n curr sel rest).1
      (expandStep sim thr n curr sel rest).2
termination_by 2 * (Finset.range n \ sel).card + q.length
decreasing_by
  exact expandStep_measure sim thr n curr sel rest

/-- One step relation of the expansion: from spectrum a one reaches any
index below n whose similarity to a is at least the threshold. -/
def simStep (sim : ℕ → ℕ → ℚ) (thr : ℚ) (n : ℕ) : ℕ → ℕ → Prop :=
  fun a b => b < n ∧ thr ≤ sim a b

lemma expandLoop_mono (sim : ℕ → ℕ → ℚ) (thr : ℚ) (n : ℕ) :
    ∀ (N : ℕ) (sel : Finset ℕ) (q : List ℕ),
      2 * (Finset.range n \ sel).card + q.length ≤ N →
      sel ⊆ expandLoop sim thr n sel q := by
  intro N
  induction N with
  | zero =>
    intro sel q hN
    cases q with
    | nil => rw [expandLoop]
    | cons curr rest => simp at hN
  | succ N IH =>
    intro sel q hN
    cases q with
    | nil => rw [expandLoop]
    | cons curr rest =>
      rw [expandLoop]
      have hm := expandStep_measure sim thr n curr sel rest
      have hstep := IH (expandStep sim thr n curr sel rest).1
        (expandStep sim thr n curr sel rest).2 (by omega)
      obtain ⟨l, h1, -, -⟩ := expandStep_spec sim thr n curr sel rest
      refine subset_trans ?_ hstep
      rw [h1]
      exact Finset.subset_union_left

lemma expandLoop_sound (sim : ℕ → ℕ → ℚ) (thr : ℚ) (n seed : ℕ) :
    ∀ (N : ℕ) (sel : Finset ℕ) (q : List ℕ),
      2 * (Finset.range n \ sel).card + q.length ≤ N →
      (∀ x ∈ q, x ∈ sel) →
      (∀ x ∈ sel, Relation.ReflTransGen (simStep sim thr n) seed x) →
      ∀ x ∈ expandLoop sim thr n sel q,
        Relation.ReflTransGen (simStep sim thr n) seed x := by
  intro N
  induction N with
  | zero =>
    intro sel q hN hq hsel
    cases q with
    | nil => rw [expandLoop]; exact hsel
    | cons curr rest => simp at hN
  | succ N IH =>
    intro sel q hN hq hsel
    cases q with
    | nil => rw [expandLoop]; exact hsel
    | cons curr rest =>
      rw [expandLoop]
      have hm := expandStep_measure sim thr n curr sel rest
      obtain ⟨l, h1, -, h3⟩ := expandStep_spec sim thr n curr sel rest
      have hcurr : curr ∈ sel := hq curr (by simp)
      have hreach : Relation.ReflTransGen (simStep sim thr n) seed curr := hsel curr hcurr
      apply IH _ _ (by omega)
      · intro x hx
        rw [h1]
        rw [h1] at hx
        simp only at hx
        rcases List.mem_append.mp hx with hxr | hxl
        · exact Finset.mem_union_left _ (hq x (by simp [hxr]))
        · exact Finset.mem_union_right _ (List.mem_toFinset.mpr hxl)
      · intro x hx
        rw [h1] at hx
        rcases Finset.mem_union.mp hx with hxs | hxl
        · exact hsel x hxs
        · rw [List.mem_toFinset] at hxl
          obtain ⟨hxn, -, hxthr⟩ := h3 x hxl
          exact Relation.ReflTransGen.tail hreach ⟨hxn, hxthr⟩

lemma expandLoop_complete (sim : ℕ → ℕ → ℚ) (thr : ℚ) (n : ℕ) :
    ∀ (N : ℕ) (sel : Finset ℕ) (q : List ℕ),
      2 * (Finset.range n \ sel).card + q.length ≤ N →
      (∀ x ∈ q, x ∈ sel) →
      (∀ x ∈ sel, x ∈ q ∨ ∀ y, simStep sim thr n x y → y ∈ sel) →
      ∀ x ∈ expandLoop sim thr n sel q, ∀ y, simStep sim thr n x y →
        y ∈ expandLoop sim thr n sel q := by
  intro N
  induction N with
  | zero =>
    intro sel q hN hq hP
    cases q with
    | nil =>
      rw [expandLoop]
      intro x hx y hy
      rcases hP x hx with hxq | hclosed
      · simp at hxq
      · exact hclosed y hy
    | cons curr rest => simp at hN
  | succ N IH =>
    intro sel q hN hq hP
    cases q with
    | nil =>
      rw [expandLoop]
      intro x hx y hy
      rcases hP x hx with hxq | hclosed
      · simp at hxq
      · exact hclosed y hy
    | cons curr rest =>
      rw [expandLoop]
      have hm := expandStep_measure sim thr n curr sel rest
      obtain ⟨l, h1, -, h3⟩ := expandStep_spec sim thr n curr sel rest
      apply IH _ _ (by omega)
      · intro x hx
        rw [h1]
        rw [h1] at hx
        simp only at hx
        rcases List.mem_append.mp hx with hxr | hxl
        · exact Finset.mem_union_left _ (hq x (by simp [hxr]))
        · exact Finset.mem_union_right _ (List.mem_toFinset.mpr hxl)
      · intro x hx
        rw [h1] at hx
        rw [h1]
        simp only
        rcases Finset.mem_union.mp hx with hxs | hxl
        · rcases hP x hxs with hxq | hclosed
          · rcases List.mem_cons.mp hxq with hxc | hxr
            · subst hxc
              right
              intro y hy
              have := expandStep_mem sim thr n x sel rest y hy.1 hy.2
              rw [h1] at this
              exact this
            · left
              exact List.mem_append.mpr (Or.inl hxr)
          · right
            intro y hy
            exact Finset.mem_union_left _ (hclosed y hy)
        · left
          rw [List.mem_toFinset] at hxl
          exact List.mem_append.mpr (Or.inr hxl)

/-- C6: the breadth first seed expansion is monotone (the selected set of
indices never shrinks across steps) and its final selected set is exactly
the set of indices reachable from the seed by a chain of similarity
scores each at least the threshold. -/
theorem expandLoop_closure (sim : ℕ → ℕ → ℚ) (thr : ℚ) (n seed : ℕ) :
    (∀ (sel : Finset ℕ) (q : List ℕ), sel ⊆ expandLoop sim thr n sel q) ∧
    (∀ i, i ∈ expandLoop sim thr n {seed} [seed] ↔
      Relation.ReflTransGen (simStep sim thr n) seed i) := by
  constructor
  · intro sel q
    exact expandLoop_mono sim thr n _ sel q le_rfl
  · intro i
    constructor
    · intro hi
      refine expandLoop_sound sim thr n seed _ {seed} [seed] le_rfl ?_ ?_ i hi
      · intro x hx
        simpa using hx
      · intro x hx
        rw [Finset.mem_singleton] at hx
        subst hx
        exact Relation.ReflTransGen.refl
    · intro hreach
      have hmono : ({seed} : Finset ℕ) ⊆ expandLoop sim thr n {seed} [seed] :=
        expandLoop_mono sim thr n _ {seed} [seed] le_rfl
      have hclosed := expandLoop_complete sim thr n _ {seed} [seed] le_rfl
        (by intro x hx; simpa using hx)
        (by
          intro x hx
          rw [Finset.mem_singleton] at hx
          subst hx
          left
          simp)
      induction hreach with
      | refl => exact hmono (Finset.mem_singleton_self seed)
      | tail hab hbc IH2 => exact hclosed _ IH2 _ hbc

/-- Error outcome of the seed driven run, spec section 7. -/
inductive RunError where
  | SeedNotFound
deriving DecidableEq

/-- Model of run_final_restoration_v2, script_03 lines 48 to 94: locate
the seed by the metadata window scan; when no spectrum passes, the Python
code prints an error message and returns early without writing any
output, modelled as the error result SeedNotFound; otherwise the breadth
first expansion runs from the seed index over all loaded spectra and the
selected spectra form the written output.  The matchms CosineGreedy
scorer over the preprocessed spectra is abstracted as sim. -/
def run_final_restoration_v2 (sim : ℕ → ℕ → ℚ) (specs : List SpectrumMeta)
    (target_mz target_rt thr : ℚ) : Except RunError (Finset ℕ) :=
  match findSeed target_mz target_rt specs with
  | none => Except.error RunError.SeedNotFound
  | some seed => Except.ok (expandLoop sim thr specs.length {seed} [seed])

/-- C7: when no spectrum in the collection passes the seed window test,
the run fails with SeedNotFound and produces no output set at all. -/
theorem run_final_restoration_v2_seed_not_found (sim : ℕ → ℕ → ℚ)
    (specs : List SpectrumMeta) (target_mz target_rt thr : ℚ)
    (h : ∀ s ∈ specs, ¬ isSeedMatch target_mz target_rt s) :
    run_final_restoration_v2 sim specs target_mz target_rt thr =
      Except.error RunError.SeedNotFound := by
  unfold run_final_restoration_v2
  rw [findSeed, findSeedAux_none target_mz target_rt specs 0 h]

/-- C7 witness: the failure at a concrete collection none of whose
spectra pass the window test. -/
theorem run_final_restoration_v2_seed_not_found_witness :
    run_final_restoration_v2 (fun _ _ => 1)
      [⟨some 0, some 1⟩, ⟨some 250, some 1⟩] 5 1 0 =
      Except.error RunError.SeedNotFound := by
  apply run_final_restoration_v2_seed_not_found
  intro s hs
  rcases List.mem_cons.mp hs with h1 | h1
  · subst h1
    unfold isSeedMatch
    norm_num
  · rcases List.mem_cons.mp h1 with h2 | h2
    · subst h2
      unfold isSeedMatch
      norm_num
    · simp at h2

/-- All unordered pairs of distinct positions of a list, in the order
produced by itertools.combinations with r equal to 2. -/
def combinations2 {α : Type} : List α → List (α × α)
  | [] => []
  | x :: xs => (xs.map (fun y => (x, y))) ++ combinations2 xs

/-- Edge record assembled by the pipeline, script_06 lines 139 to 143. -/
structure EdgeRec where
  source : ℕ
  target : ℕ
  similarity : ℝ
  entropy_ratio : ℝ

/-- Rounding to four decimals as used for the stored edge attributes,
script_06 lines 141 and 142.  Python round is round half to even on
binary floats; on the exact reals used here Mathlib round resolves exact
midpoints upward, a difference visible only at exact four decimal
midpoints. -/
noncomputable def round4 (x : ℝ) : ℝ := (round (x * 10 ^ 4) : ℤ) / 10 ^ 4

/-- Entropy ratio of a qualifying edge, script_06 lines 132 to 137: the
ratio of the smaller to the larger entropy when both are positive, else
the fallback value 1.0 that avoids a division by zero. -/
noncomputable def entropyRatioFun (e1 e2 : ℝ) : ℝ :=
  if 0 < e1 ∧ 0 < e2 then min e1 e2 / max e1 e2 else 1

open Classical in
/-- Line style attribute written for an edge, script_06 line 95: the
string dash when the stored entropy ratio is below ENTROPY_RATIO_LIMIT,
else the string solid. -/
noncomputable def line_style (r : ℝ) : String :=
  if r < (ENTROPY_RATIO_LIMIT : ℝ) then "dash" else "solid"

open Classical in
/-- Edge list of the pipeline, script_06 lines 126 to 143: every
unordered pair of distinct spectra in combination order is scored; a pair
reaching SIM_THRESHOLD contributes one edge record carrying the two node
indices and the rounded similarity and entropy ratio. -/
noncomputable def pipeline_edges (specs : List Peaks) : List EdgeRec :=
  (combinations2 specs.enum).filterMap (fun pr =>
    if (SIM_THRESHOLD : ℝ) ≤ cosine_similarity pr.1.2 pr.2.2 then
      some { source := pr.1.1, target := pr.2.1,
             similarity := round4 (cosine_similarity pr.1.2 pr.2.2),
             entropy_ratio := round4 (entropyRatioFun
               (calculate_spectral_entropy pr.1.2)
               (calculate_spectral_entropy pr.2.2)) }
    else none)

/-- Main pipeline of script_06 lines 103 to 145: all parsed spectra
become nodes (kept with their input position), and the qualifying pairs
become edges. -/
noncomputable def run_similarity_network_pipeline (specs : List Peaks) :
    List (ℕ × Peaks) × List EdgeRec :=
  (specs.enum, pipeline_edges specs)

lemma combinations2_sub {α : Type} :
    ∀ (l : List α) (p : α × α), p ∈ combinations2 l → p.1 ∈ l ∧ p.2 ∈ l := by
  intro l
  induction l with
  | nil => intro p hp; simp [combinations2] at hp
  | cons x xs IH =>
    intro p hp
    rcases List.mem_append.mp hp with h | h
    · obtain ⟨y, hy, hpy⟩ := List.mem_map.mp h
      subst hpy
      exact ⟨by simp, by simp [hy]⟩
    · exact ⟨List.mem_cons_of_mem x (IH p h).1, List.mem_cons_of_mem x (IH p h).2⟩

lemma combinations2_nodup {α : Type} :
    ∀ l : List α, l.Nodup → (combinations2 l).Nodup := by
  intro l
  induction l with
  | nil => intro _; simp [combinations2]
  | cons x xs IH =>
    intro h
    rw [List.nodup_cons] at h
    refine List.Nodup.append ?_ (IH h.2) ?_
    · exact List.Nodup.map (fun a b hab => by simpa using hab) h.2
    · intro p hp1 hp2
      obtain ⟨y, hy, hpy⟩ := List.mem_map.mp hp1
      subst hpy
      exact h.1 (combinations2_sub xs (x, y) hp2).1

lemma combinations2_length_two {α : Type} :
    ∀ l : List α, 2 * (combinations2 l).length = l.length * (l.length - 1) := by
  intro l
  induction l with
  | nil => simp [combinations2]
  | cons x xs IH =>
    rw [combinations2, List.length_append, List.length_map, List.length_cons,
      Nat.add_sub_cancel]
    have key : (xs.length + 1) * xs.length = xs.length * (xs.length - 1) + 2 * xs.length := by
      cases hxl : xs.length with
      | zero => simp
      | succ k =>
        simp only [Nat.add_sub_cancel]
        ring
    omega

lemma mem_combinations2_iff {α : Type} :
    ∀ (l : List α) (p : α × α),
      p ∈ combinations2 l ↔
        ∃ i j, i < j ∧ l.get? i = some p.1 ∧ l.get? j = some p.2 := by
  intro l
  induction l with
  | nil => intro p; simp [combinations2]
  | cons x xs IH =>
    intro p
    rw [combinations2, List.mem_append]
    constructor
    · rintro (h | h)
      · obtain ⟨y, hy, hpy⟩ := List.mem_map.mp h
        subst hpy
        obtain ⟨k, hk⟩ := List.mem_iff_get?.mp hy
        exact ⟨0, k + 1, Nat.succ_pos k, by simp, by simpa using hk⟩
      · obtain ⟨i, j, hij, hi, hj⟩ := (IH p).mp h
        exact ⟨i + 1, j + 1, by omega, by simpa using hi, by simpa using hj⟩
    · rintro ⟨i, j, hij, hi, hj⟩
      cases i with
      | zero =>
        left
        simp only [List.get?_cons_zero, Option.some_inj] at hi
        cases j with
        | zero => omega
        | succ k =>
          simp only [List.get?_cons_succ] at hj
          have hmem : p.2 ∈ xs := List.mem_iff_get?.mpr ⟨k, hj⟩
          have : (x, p.2) = p := by rw [hi]
          rw [← this]
          exact List.mem_map.mpr ⟨p.2, hmem, rfl⟩
      | succ i2 =>
        right
        cases j with
        | zero => omega
        | succ j2 =>
          simp only [List.get?_cons_succ] at hi hj
          exact (IH p).mpr ⟨i2, j2, by omega, hi, hj⟩

lemma get?_enum_eq_some (l : List Peaks) (k i : ℕ) (x : Peaks) :
    l.enum.get? k = some (i, x) ↔ k = i ∧ l.get? i = some x := by
  rw [List.get?_enum]
  constructor
  · intro h
    cases hm : l.get? k with
    | none => rw [hm] at h; simp at h
    | some y =>
      rw [hm] at h
      simp only [Option.map_some', Option.some_inj, Prod.mk.injEq] at h
      obtain ⟨hk, hy⟩ := h
      subst hk
      subst hy
      exact ⟨rfl, hm⟩
  · rintro ⟨hk, hx⟩
    subst hk
    rw [hx]
    rfl

/-- Membership description of the candidate pair list over the spectra
with their input positions. -/
lemma mem_combinations2_enum (specs : List Peaks) (i j : ℕ) (x y : Peaks) :
    ((i, x), (j, y)) ∈ combinations2 specs.enum ↔
      i < j ∧ specs.get? i = some x ∧ specs.get? j = some y := by
  rw [mem_combinations2_iff]
  constructor
  · rintro ⟨i2, j2, hij, hi, hj⟩
    obtain ⟨hik, hx⟩ := (get?_enum_eq_some specs i2 i x).mp hi
    obtain ⟨hjk, hy⟩ := (get?_enum_eq_some specs j2 j y).mp hj
    subst hik
    subst hjk
    exact ⟨hij, hx, hy⟩
  · rintro ⟨hij, hx, hy⟩
    exact ⟨i, j, hij, (get?_enum_eq_some specs i i x).mpr ⟨rfl, hx⟩,
      (get?_enum_eq_some specs j j y).mpr ⟨rfl, hy⟩⟩

lemma nodup_filterMap_on {α β : Type} (f : α → Option β) :
    ∀ l : List α, l.Nodup →
      (∀ a ∈ l, ∀ b ∈ l, ∀ c, f a = some c → f b = some c → a = b) →
      (l.filterMap f).Nodup := by
  intro l
  induction l with
  | nil => intro _ _; simp
  | cons x xs IH =>
    intro hnd hinj
    rw [List.nodup_cons] at hnd
    rw [List.filterMap_cons]
    have hrec : (xs.filterMap f).Nodup := by
      apply IH hnd.2
      intro a ha b hb c hac hbc
      exact hinj a (List.mem_cons_of_mem x ha) b (List.mem_cons_of_mem x hb) c hac hbc
    cases hf : f x with
    | none => exact hrec
    | some c =>
      refine List.Nodup.cons ?_ hrec
      intro hc
      obtain ⟨a, ha, hac⟩ := List.mem_filterMap.mp hc
      have hax : a = x :=
        hinj a (List.mem_cons_of_mem x ha) x (List.mem_cons_self x xs) c hac hf
      subst hax
      exact hnd.1 ha

lemma mem_enum_iff (l : List Peaks) (i : ℕ) (x : Peaks) :
    (i, x) ∈ l.enum ↔ l.get? i = some x := by
  rw [List.mem_iff_get?]
  constructor
  · rintro ⟨k, hk⟩
    exact ((get?_enum_eq_some l k i x).mp hk).2
  · intro h
    exact ⟨i, (get?_enum_eq_some l i i x).mpr ⟨rfl, h⟩⟩

lemma enum_nodup (l : List Peaks) : l.enum.Nodup := by
  apply List.Nodup.of_map Prod.fst
  rw [List.enum_map_fst]
  exact List.nodup_range l.length

open Classical in
lemma pipeline_edges_pairs (specs : List Peaks) :
    (pipeline_edges specs).map (fun e => (e.source, e.target)) =
      (combinations2 specs.enum).filterMap (fun pr =>
        if (SIM_THRESHOLD : ℝ) ≤ cosine_similarity pr.1.2 pr.2.2 then
          some (pr.1.1, pr.2.1)
        else none) := by
  unfold pipeline_edges
  rw [List.map_filterMap]
  congr 1
  funext pr
  by_cases hc : (SIM_THRESHOLD : ℝ) ≤ cosine_similarity pr.1.2 pr.2.2
  · rw [if_pos hc, if_pos hc]
    rfl
  · rw [if_neg hc, if_neg hc]
    rfl

/-- C8: the full pairwise network builder keeps all input spectra as
nodes (with their input position), scores every unordered pair of
distinct spectra exactly once, emits an edge exactly for the pairs whose
score reaches SIM_THRESHOLD, never emits a duplicate pair, and therefore
produces at most n times (n minus 1) over 2 edges on n spectra. -/
theorem run_similarity_network_pipeline_spec (specs : List Peaks) :
    (run_similarity_network_pipeline specs).1.length = specs.length ∧
    (pipeline_edges specs).length ≤ specs.length * (specs.length - 1) / 2 ∧
    ((pipeline_edges specs).map (fun e => (e.source, e.target))).Nodup ∧
    (∀ i j : ℕ,
      (i, j) ∈ (pipeline_edges specs).map (fun e => (e.source, e.target)) ↔
        i < j ∧ j < specs.length ∧
          (SIM_THRESHOLD : ℝ) ≤
            cosine_similarity (specs.getD i []) (specs.getD j [])) := by
  refine ⟨?_, ?_, ?_, ?_⟩
  · simp [run_similarity_network_pipeline]
  · have h1 : (pipeline_edges specs).length ≤ (combinations2 specs.enum).length :=
      List.length_filterMap_le _ _
    have h2 := combinations2_length_two specs.enum
    rw [List.enum_length] at h2
    omega
  · rw [pipeline_edges_pairs]
    apply nodup_filterMap_on _ _ (combinations2_nodup specs.enum (enum_nodup specs))
    intro a ha b hb c hac hbc
    by_cases hca : (SIM_THRESHOLD : ℝ) ≤ cosine_similarity a.1.2 a.2.2
    · rw [if_pos hca] at hac
      by_cases hcb : (SIM_THRESHOLD : ℝ) ≤ cosine_similarity b.1.2 b.2.2
      · rw [if_pos hcb] at hbc
        have hc1 : (a.1.1, a.2.1) = (b.1.1, b.2.1) := by
          rw [Option.some_inj.mp hac, Option.some_inj.mp hbc]
        simp only [Prod.mk.injEq] at hc1
        have hmema := combinations2_sub specs.enum a ha
        have hmemb := combinations2_sub specs.enum b hb
        have ha1 : specs.get? a.1.1 = some a.1.2 := by
          have := (mem_enum_iff specs a.1.1 a.1.2).mp (by simpa using hmema.1)
          exact this
        have ha2 : specs.get? a.2.1 = some a.2.2 := by
          have := (mem_enum_iff specs a.2.1 a.2.2).mp (by simpa using hmema.2)
          exact this
        have hb1 : specs.get? b.1.1 = some b.1.2 := by
          have := (mem_enum_iff specs b.1.1 b.1.2).mp (by simpa using hmemb.1)
          exact this
        have hb2 : specs.get? b.2.1 = some b.2.2 := by
          have := (mem_enum_iff specs b.2.1 b.2.2).mp (by simpa using hmemb.2)
          exact this
        rw [hc1.1] at ha1
        rw [hc1.2] at ha2
        rw [hb1] at ha1
        rw [hb2] at ha2
        have hfst : a.1 = b.1 := Prod.ext hc1.1 (Option.some_inj.mp ha1).symm
        have hsnd : a.2 = b.2 := Prod.ext hc1.2 (Option.some_inj.mp ha2).symm
        exact Prod.ext hfst hsnd
      · rw [if_neg hcb] at hbc
        simp at hbc
    · rw [if_neg hca] at hac
      simp at hac
  · intro i j
    rw [pipeline_edges_pairs, List.mem_filterMap]
    constructor
    · rintro ⟨pr, hpr, hg⟩
      obtain ⟨⟨i2, x⟩, ⟨j2, y⟩⟩ := pr
      by_cases hc : (SIM_THRESHOLD : ℝ) ≤ cosine_similarity x y
      · rw [if_pos hc] at hg
        simp only [Option.some_inj, Prod.mk.injEq] at hg
        obtain ⟨hgi, hgj⟩ := hg
        rw [hgi, hgj] at hpr
        obtain ⟨hij, hx, hy⟩ := (mem_combinations2_enum specs i j x y).mp hpr
        have hjlen : j < specs.length := by
          rcases List.get?_eq_some.mp hy with ⟨hlt, -⟩
          exact hlt
        have hgx : specs.getD i [] = x := by
          rw [List.getD_eq_get?, hx]
          rfl
        have hgy : specs.getD j [] = y := by
          rw [List.getD_eq_get?, hy]
          rfl
        rw [hgx, hgy]
        exact ⟨hij, hjlen, hc⟩
      · rw [if_neg hc] at hg
        simp at hg
    · rintro ⟨hij, hjlen, hc⟩
      have hilen : i < specs.length := lt_trans hij hjlen
      have hx : specs.get? i = some (specs.getD i []) := by
        rw [List.getD_eq_get?, List.get?_eq_get hilen]
        rfl
      have hy : specs.get? j = some (specs.getD j []) := by
        rw [List.getD_eq_get?, List.get?_eq_get hjlen]
        rfl
      refine ⟨((i, specs.getD i []), (j, specs.getD j [])), ?_, ?_⟩
      · exact (mem_combinations2_enum specs i j _ _).mpr ⟨hij, hx, hy⟩
      · rw [if_pos hc]

/-- C9 counterexample: at an entropy ratio of 0, which lies below the
limit 0.75, the emitted visual style string is dash, not dashed as the
claim states. -/
theorem line_style_counterexample :
    line_style 0 ≠ "dashed" ∧ (0 : ℝ) < (ENTROPY_RATIO_LIMIT : ℝ) := by
  constructor
  · unfold line_style
    rw [if_pos (by norm_num [ENTROPY_RATIO_LIMIT])]
    decide
  · norm_num [ENTROPY_RATIO_LIMIT]

/-- C9 amended: for a qualifying edge the entropy ratio is the ratio of
the smaller to the larger entropy when both are positive and defaults to
1.0 when either is 0 (or otherwise not positive), so the ratio is always
in the half open interval from 0 exclusive to 1 inclusive with no
division error; the emitted visual style attribute is the string dash
when the stored ratio is below ENTROPY_RATIO_LIMIT and the string solid
otherwise; and every emitted edge stores the (four decimal rounded)
entropy ratio of the entropies of its two endpoint spectra. -/
theorem entropy_ratio_style_amended :
    (∀ e1 e2 : ℝ, 0 < e1 → 0 < e2 →
      entropyRatioFun e1 e2 = min e1 e2 / max e1 e2) ∧
    (∀ e1 e2 : ℝ, e1 = 0 ∨ e2 = 0 → entropyRatioFun e1 e2 = 1) ∧
    (∀ e1 e2 : ℝ, 0 < entropyRatioFun e1 e2 ∧ entropyRatioFun e1 e2 ≤ 1) ∧
    (∀ r : ℝ, r < (ENTROPY_RATIO_LIMIT : ℝ) → line_style r = "dash") ∧
    (∀ r : ℝ, (ENTROPY_RATIO_LIMIT : ℝ) ≤ r → line_style r = "solid") ∧
    (∀ specs : List Peaks, ∀ e ∈ pipeline_edges specs,
      ∃ x y, specs.get? e.source = some x ∧ specs.get? e.target = some y ∧
        e.entropy_ratio = round4 (entropyRatioFun
          (calculate_spectral_entropy x) (calculate_spectral_entropy y))) := by
  refine ⟨?_, ?_, ?_, ?_, ?_, ?_⟩
  · intro e1 e2 h1 h2
    unfold entropyRatioFun
    rw [if_pos ⟨h1, h2⟩]
  · intro e1 e2 h
    unfold entropyRatioFun
    rw [if_neg]
    rintro ⟨c1, c2⟩
    rcases h with h | h
    · rw [h] at c1
      exact lt_irrefl 0 c1
    · rw [h] at c2
      exact lt_irrefl 0 c2
  · intro e1 e2
    unfold entropyRatioFun
    by_cases hc : 0 < e1 ∧ 0 < e2
    · rw [if_pos hc]
      have hmin : 0 < min e1 e2 := lt_min hc.1 hc.2
      have hmax : 0 < max e1 e2 := lt_of_lt_of_le hmin (min_le_max)
      exact ⟨div_pos hmin hmax, (div_le_one hmax).mpr min_le_max⟩
    · rw [if_neg hc]
      norm_num
  · intro r h
    unfold line_style
    rw [if_pos h]
  · intro r h
    unfold line_style
    rw [if_neg (not_lt.mpr h)]
  · intro specs e he
    unfold pipeline_edges at he
    obtain ⟨pr, hpr, hf⟩ := List.mem_filterMap.mp he
    obtain ⟨⟨i, x⟩, ⟨j, y⟩⟩ := pr
    by_cases hc : (SIM_THRESHOLD : ℝ) ≤ cosine_similarity x y
    · rw [if_pos hc] at hf
      obtain ⟨hij, hx, hy⟩ := (mem_combinations2_enum specs i j x y).mp hpr
      refine ⟨x, y, ?_, ?_, ?_⟩
      · rw [← Option.some_inj.mp hf]
        exact hx
      · rw [← Option.some_inj.mp hf]
        exact hy
      · rw [← Option.some_inj.mp hf]
    · rw [if_neg hc] at hf
      simp at hf

/-- C9 amended witness: the ratio and style functions evaluated at
concrete values on both sides of the limit and of the positivity
guard. -/
theorem entropy_ratio_style_amended_witness :
    entropyRatioFun 1 2 = 1 / 2 ∧ entropyRatioFun 0 2 = 1 ∧
    line_style (1 / 2) = "dash" ∧ line_style 1 = "solid" := by
  obtain ⟨h1, h2, h3, h4, h5, h6⟩ := entropy_ratio_style_amended
  refine ⟨?_, h2 0 2 (Or.inl rfl),
    h4 (1 / 2) (by norm_num [ENTROPY_RATIO_LIMIT]),
    h5 1 (by norm_num [ENTROPY_RATIO_LIMIT])⟩
  rw [h1 1 2 one_pos (by norm_num)]
  norm_num
